import Mathlib

/-!
# Verification of the TruthLens spectral-fingerprint pipeline

Shallow embedding, in Lean 4, of the algorithmic core of the
TruthLens AI-video-detection repository:

* `Utils` (utility module): `normalize`, `fftShift`, `calculateMagnitude`;
* `FFTAnalyzer` (`fft-analyzer.js`): `fft1D`, the pattern classifier
  `analyzeFFTPattern`, the aggregation/decision stage `detectAIPatterns`,
  the frame-sampling timestamps of `extractFrames` and the progress
  reports of `analyzeVideo`.

JavaScript `number` arithmetic is modelled by exact rationals `ℚ`
(and by `ℝ`/`ℂ` for the Fourier transform, whose twiddle factors are
transcendental).  JavaScript arrays are modelled by `List` or by total
functions `ℕ → _`, as noted at each definition.
-/

set_option maxHeartbeats 1000000

namespace TruthLens

/-- Generic invariant lemma for `List.foldl`: a predicate preserved by every
step (for elements of the list) holds of the final accumulator. -/
theorem foldl_invariant {α : Type*} {β : Type*} (f : α → β → α) (P : α → Prop) :
    ∀ (l : List β) (a : α), P a → (∀ x b, b ∈ l → P x → P (f x b)) → P (l.foldl f a)
  | [], _, ha, _ => ha
  | b :: l, a, ha, hf =>
    foldl_invariant f P l (f a b) (hf a b (List.mem_cons_self b l) ha)
      (fun x c hc hx => hf x c (List.mem_cons_of_mem b hc) hx)

namespace Utils

/-- Embeds `Math.min(...data)` over a (nonempty) array, as used by `Utils.normalize`.
The `[]` case (JavaScript would give `Infinity`) is never reached by
`normalize`, whose `map` over `[]` ignores it. -/
def listMin : List ℚ → ℚ
  | [] => 0
  | x :: xs => xs.foldl min x

/-- Embeds `Math.max(...data)` over a (nonempty) array, as used by `Utils.normalize`. -/
def listMax : List ℚ → ℚ
  | [] => 0
  | x :: xs => xs.foldl max x

/-- Round to the nearest integer, ties to even: the rounding that assignment
into a `Uint8ClampedArray` performs (ECMAScript `ToUint8Clamp`) on a value
that is already within `[0, 255]`. -/
def roundHalfEven (q : ℚ) : ℤ :=
  let f := ⌊q⌋
  let r := q - (f : ℚ)
  if r < 1 / 2 then f
  else if 1 / 2 < r then f + 1
  else if Even f then f else f + 1

/-- ECMAScript `ToUint8Clamp`: clamp to `[0, 255]`, then round half to even.
Applied elementwise on assignment into the `Uint8ClampedArray` that
`Utils.normalize` fills. -/
def uint8Clamp (q : ℚ) : ℤ :=
  if q ≤ 0 then 0 else if 255 ≤ q then 255 else roundHalfEven q

/-- Embeds `Utils.normalize` (utility module): linear min-max rescale of an array
into the `[0, 255]` range, writing into a `Uint8ClampedArray`
(hence `uint8Clamp` on each stored value); if `range ≤ 0` every output
entry is `0`. -/
def normalize (data : List ℚ) : List ℤ :=
  let mn := listMin data
  let mx := listMax data
  let range := mx - mn
  data.map (fun x => if 0 < range then uint8Clamp ((x - mn) / range * 255) else 0)

theorem listMin_replicate (n : ℕ) (c : ℚ) : listMin (List.replicate (n + 1) c) = c := by
  have h : ∀ m : ℕ, (List.replicate m c).foldl min c = c := by
    intro m
    induction m with
    | zero => rfl
    | succ k ih => simpa [List.replicate_succ, min_self] using ih
  simpa [List.replicate_succ, listMin] using h n

theorem listMax_replicate (n : ℕ) (c : ℚ) : listMax (List.replicate (n + 1) c) = c := by
  have h : ∀ m : ℕ, (List.replicate m c).foldl max c = c := by
    intro m
    induction m with
    | zero => rfl
    | succ k ih => simpa [List.replicate_succ, max_self] using ih
  simpa [List.replicate_succ, listMax] using h n

/-- On a constant array the computed range is `0`, so every output is `0`. -/
theorem normalize_replicate (n : ℕ) (c : ℚ) :
    normalize (List.replicate n c) = List.replicate n 0 := by
  cases n with
  | zero => rfl
  | succ k =>
    unfold normalize
    rw [listMin_replicate, listMax_replicate]
    simp

theorem normalize_length (l : List ℚ) : (normalize l).length = l.length := by
  simp [normalize]

theorem roundHalfEven_bounds (q : ℚ) (h0 : 0 < q) (h255 : q < 255) :
    0 ≤ roundHalfEven q ∧ roundHalfEven q ≤ 255 := by
  have hf0 : (0 : ℤ) ≤ ⌊q⌋ := Int.floor_nonneg.mpr h0.le
  have hf255 : ⌊q⌋ < 255 := by
    rw [Int.floor_lt]
    exact_mod_cast h255
  unfold roundHalfEven
  dsimp only
  split_ifs <;> exact ⟨by omega, by omega⟩

theorem uint8Clamp_bounds (q : ℚ) : 0 ≤ uint8Clamp q ∧ uint8Clamp q ≤ 255 := by
  unfold uint8Clamp
  split
  · exact ⟨le_refl 0, by norm_num⟩
  · split
    · exact ⟨by norm_num, le_refl 255⟩
    · exact roundHalfEven_bounds q (by linarith [not_le.mp (by assumption : ¬ q ≤ 0)])
        (lt_of_not_le (by assumption))

theorem normalize_mem_bounds (l : List ℚ) (z : ℤ) (hz : z ∈ normalize l) :
    0 ≤ z ∧ z ≤ 255 := by
  unfold normalize at hz
  simp only [List.mem_map] at hz
  obtain ⟨x, _, hx⟩ := hz
  subst hx
  split
  · exact uint8Clamp_bounds _
  · exact ⟨le_refl 0, by norm_num⟩

theorem affine_min (a b u v : ℚ) (ha : 0 < a) :
    min (a * u + b) (a * v + b) = a * min u v + b := by
  rcases le_total u v with h | h
  · rw [min_eq_left h, min_eq_left]
    have := mul_le_mul_of_nonneg_left h ha.le
    linarith
  · rw [min_eq_right h, min_eq_right]
    have := mul_le_mul_of_nonneg_left h ha.le
    linarith

theorem affine_max (a b u v : ℚ) (ha : 0 < a) :
    max (a * u + b) (a * v + b) = a * max u v + b := by
  rcases le_total u v with h | h
  · rw [max_eq_right h, max_eq_right]
    have := mul_le_mul_of_nonneg_left h ha.le
    linarith
  · rw [max_eq_left h, max_eq_left]
    have := mul_le_mul_of_nonneg_left h ha.le
    linarith

theorem foldl_min_map_affine (a b : ℚ) (ha : 0 < a) :
    ∀ (xs : List ℚ) (x : ℚ),
      (xs.map (fun u => a * u + b)).foldl min (a * x + b) = a * xs.foldl min x + b := by
  intro xs
  induction xs with
  | nil => intro x; rfl
  | cons y ys ih =>
    intro x
    simp only [List.map_cons, List.foldl_cons]
    rw [affine_min a b x y ha]
    exact ih (min x y)

theorem foldl_max_map_affine (a b : ℚ) (ha : 0 < a) :
    ∀ (xs : List ℚ) (x : ℚ),
      (xs.map (fun u => a * u + b)).foldl max (a * x + b) = a * xs.foldl max x + b := by
  intro xs
  induction xs with
  | nil => intro x; rfl
  | cons y ys ih =>
    intro x
    simp only [List.map_cons, List.foldl_cons]
    rw [affine_max a b x y ha]
    exact ih (max x y)

/-- Applying a positive affine map `x ↦ a·x + b` to every entry does not
change the min-max normalization: the rescale cancels the map exactly. -/
theorem normalize_map_affine (a b : ℚ) (ha : 0 < a) (l : List ℚ) :
    normalize (l.map fun u => a * u + b) = normalize l := by
  cases l with
  | nil => rfl
  | cons x xs =>
    have ha' : a ≠ 0 := ne_of_gt ha
    have hmin : listMin (List.map (fun u => a * u + b) (x :: xs)) = a * listMin (x :: xs) + b := by
      simp only [List.map_cons, listMin]
      exact foldl_min_map_affine a b ha xs x
    have hmax : listMax (List.map (fun u => a * u + b) (x :: xs)) = a * listMax (x :: xs) + b := by
      simp only [List.map_cons, listMax]
      exact foldl_max_map_affine a b ha xs x
    simp only [normalize, hmin, hmax]
    rw [List.map_map]
    refine List.map_congr_left ?_
    intro u _
    simp only [Function.comp_apply]
    have hrange : a * listMax (x :: xs) + b - (a * listMin (x :: xs) + b)
        = a * (listMax (x :: xs) - listMin (x :: xs)) := by ring
    rw [hrange]
    set m := listMin (x :: xs)
    set M := listMax (x :: xs)
    by_cases h : 0 < M - m
    · have h' : 0 < a * (M - m) := mul_pos ha h
      rw [if_pos h, if_pos h']
      have harg : a * u + b - (a * m + b) = a * (u - m) := by ring
      rw [harg, mul_div_mul_left (u - m) (M - m) ha']
    · have h' : ¬ 0 < a * (M - m) := by
        intro hc
        exact h ((mul_pos_iff_of_pos_left ha).mp hc)
      rw [if_neg h, if_neg h']

/-- The `(y, x)` iteration order of the two nested loops of `Utils.fftShift`
(`y` outer over `[0, height)`, `x` inner over `[0, width)`). -/
def gridPairs (height width : ℕ) : List (ℕ × ℕ) :=
  (List.range height).flatMap (fun y => (List.range width).map (fun x => (y, x)))

/-- Flat destination index of source position `(y, x)` under `Utils.fftShift`:
`newX = (x + ⌊width/2⌋) % width`, `newY = (y + ⌊height/2⌋) % height`,
written at `newY * width + newX`. -/
def shiftTarget (width height : ℕ) (p : ℕ × ℕ) : ℕ :=
  ((p.1 + height / 2) % height) * width + ((p.2 + width / 2) % width)

/-- Embeds `Utils.fftShift` (utility module): allocates a zero-filled output array
(`new Float32Array(data.length)`, modelled as the constantly-zero function)
and writes `data[y*width + x]` to `shifted[newY*width + newX]` for every
source position.  Arrays are modelled as total functions of the flat index. -/
def fftShift (data : ℕ → ℚ) (width height : ℕ) : ℕ → ℚ :=
  (gridPairs height width).foldl
    (fun shifted p =>
      Function.update shifted (shiftTarget width height p) (data (p.1 * width + p.2)))
    (fun _ => 0)

theorem mem_gridPairs (height width : ℕ) (p : ℕ × ℕ) :
    p ∈ gridPairs height width ↔ p.1 < height ∧ p.2 < width := by
  cases p with
  | mk y x =>
    simp [gridPairs, List.mem_flatMap, List.mem_map, List.mem_range]

theorem foldl_update_not_mem {β : Type*} (tgtF : β → ℕ) (valF : β → ℚ) :
    ∀ (l : List β) (a0 : ℕ → ℚ) (t : ℕ), (∀ p ∈ l, tgtF p ≠ t) →
      (l.foldl (fun acc p => Function.update acc (tgtF p) (valF p)) a0) t = a0 t
  | [], _, _, _ => rfl
  | p :: l, a0, t, h => by
    simp only [List.foldl_cons]
    rw [foldl_update_not_mem tgtF valF l _ t
      (fun q hq => h q (List.mem_cons_of_mem p hq))]
    exact Function.update_noteq (Ne.symm (h p (List.mem_cons_self p l))) _ a0

/-- If exactly the writes to index `t` in the list all carry value `v` (and
at least one exists), the fold of updates stores `v` at `t`. -/
theorem foldl_update_unique {β : Type*} (tgtF : β → ℕ) (valF : β → ℚ) :
    ∀ (l : List β) (a0 : ℕ → ℚ) (t : ℕ) (v : ℚ),
      (∃ p ∈ l, tgtF p = t) → (∀ p ∈ l, tgtF p = t → valF p = v) →
      (l.foldl (fun acc p => Function.update acc (tgtF p) (valF p)) a0) t = v
  | [], _, _, _, hex, _ => absurd hex (by simp)
  | p :: l, a0, t, v, hex, huniq => by
    by_cases hl : ∃ q ∈ l, tgtF q = t
    · simp only [List.foldl_cons]
      exact foldl_update_unique tgtF valF l _ t v hl
        (fun q hq => huniq q (List.mem_cons_of_mem p hq))
    · push_neg at hl
      obtain ⟨q, hq, hqt⟩ := hex
      have hpt : tgtF p = t := by
        rcases List.mem_cons.mp hq with h | h
        · exact h ▸ hqt
        · exact absurd hqt (hl q h)
      simp only [List.foldl_cons]
      rw [foldl_update_not_mem tgtF valF l _ t hl, hpt,
        Function.update_same]
      exact huniq p (List.mem_cons_self p l) hpt

theorem shiftTarget_inj (width height : ℕ) (p q : ℕ × ℕ)
    (hp : p.1 < height ∧ p.2 < width) (hq : q.1 < height ∧ q.2 < width)
    (h : shiftTarget width height p = shiftTarget width height q) : p = q := by
  obtain ⟨hp1, hp2⟩ := hp
  obtain ⟨hq1, hq2⟩ := hq
  have hw : 0 < width := by omega
  have hh : 0 < height := by omega
  have hmod : ∀ A B : ℕ, B < width → (A * width + B) % width = B := by
    intro A B hB
    rw [Nat.mul_comm A width, Nat.mul_add_mod]
    exact Nat.mod_eq_of_lt hB
  have hdiv : ∀ A B : ℕ, B < width → (A * width + B) / width = A := by
    intro A B hB
    rw [Nat.mul_comm A width, Nat.mul_add_div hw, Nat.div_eq_of_lt hB, Nat.add_zero]
  unfold shiftTarget at h
  have hpx : (p.2 + width / 2) % width < width := Nat.mod_lt _ hw
  have hqx : (q.2 + width / 2) % width < width := Nat.mod_lt _ hw
  have hX : (p.2 + width / 2) % width = (q.2 + width / 2) % width := by
    have h1 := congrArg (· % width) h
    dsimp only at h1
    rwa [hmod _ _ hpx, hmod _ _ hqx] at h1
  have hY : (p.1 + height / 2) % height = (q.1 + height / 2) % height := by
    have h2 := congrArg (· / width) h
    dsimp only at h2
    rwa [hdiv _ _ hpx, hdiv _ _ hqx] at h2
  have hx : p.2 = q.2 := by
    have hmc : p.2 ≡ q.2 [MOD width] := Nat.ModEq.add_right_cancel' (width / 2) hX
    rwa [Nat.ModEq, Nat.mod_eq_of_lt hp2, Nat.mod_eq_of_lt hq2] at hmc
  have hy : p.1 = q.1 := by
    have hmc : p.1 ≡ q.1 [MOD height] := Nat.ModEq.add_right_cancel' (height / 2) hY
    rwa [Nat.ModEq, Nat.mod_eq_of_lt hp1, Nat.mod_eq_of_lt hq1] at hmc
  exact Prod.ext hy hx

/-- Characterization of `fftShift`: the value stored at the destination of
source position `(y, x)` is the source value, because each destination
index is written exactly once (the index map is a bijection of the grid). -/
theorem fftShift_apply_target (data : ℕ → ℚ) (width height : ℕ) (y x : ℕ)
    (hy : y < height) (hx : x < width) :
    fftShift data width height (shiftTarget width height (y, x)) = data (y * width + x) := by
  unfold fftShift
  apply foldl_update_unique (shiftTarget width height)
    (fun p => data (p.1 * width + p.2)) (gridPairs height width)
  · exact ⟨(y, x), (mem_gridPairs height width (y, x)).mpr ⟨hy, hx⟩, rfl⟩
  · intro q hqmem hqt
    have hq := (mem_gridPairs height width q).mp hqmem
    have := shiftTarget_inj width height q (y, x) hq ⟨hy, hx⟩ hqt
    rw [this]

theorem even_half_add_half {n : ℕ} (hn : Even n) : n / 2 + n / 2 = n := by
  obtain ⟨k, hk⟩ := hn
  omega

theorem mod_shift_cancel {n c x : ℕ} (hx : x < n) (hc : c + c = n) :
    ((x + c) % n + c) % n = x := by
  have h1 : ((x + c) % n + c) % n = (x + c + c) % n := Nat.mod_add_mod (x + c) n c
  rw [h1]
  have h2 : x + c + c = x + n := by omega
  rw [h2, Nat.add_mod_right, Nat.mod_eq_of_lt hx]

/-- Reading `fftShift` output at any grid position `(Y, X)`, for even
dimensions: the value comes from source position
`((Y + height/2) % height, (X + width/2) % width)`. -/
theorem fftShift_apply_even (data : ℕ → ℚ) (width height : ℕ)
    (hw : Even width) (hh : Even height) (Y X : ℕ) (hY : Y < height) (hX : X < width) :
    fftShift data width height (Y * width + X)
      = data (((Y + height / 2) % height) * width + ((X + width / 2) % width)) := by
  have hwpos : 0 < width := by omega
  have hhpos : 0 < height := by omega
  have hx0 : (X + width / 2) % width < width := Nat.mod_lt _ hwpos
  have hy0 : (Y + height / 2) % height < height := Nat.mod_lt _ hhpos
  have key := fftShift_apply_target data width height
    ((Y + height / 2) % height) ((X + width / 2) % width) hy0 hx0
  have htgt : shiftTarget width height ((Y + height / 2) % height, (X + width / 2) % width)
      = Y * width + X := by
    unfold shiftTarget
    rw [mod_shift_cancel hX (even_half_add_half hw),
      mod_shift_cancel hY (even_half_add_half hh)]
  rw [htgt] at key
  exact key

/-- Embeds `Utils.calculateMagnitude`: elementwise `sqrt(re*re + im*im)` over the two
parallel component arrays of a complex field. -/
noncomputable def calculateMagnitude (real imag : ℕ → ℝ) : ℕ → ℝ :=
  fun i => Real.sqrt (real i * real i + imag i * imag i)

end Utils

namespace FFTAnalyzer

/-- The swap `[real[i], real[j]] = [real[j], real[i]]` (and likewise for the
imaginary parts) in the bit-reversal pass of `fft1D`; the complex array is
modelled as one function `ℕ → ℂ`. -/
def swapIdx (a : ℕ → ℂ) (i j : ℕ) : ℕ → ℂ :=
  Function.update (Function.update a i (a j)) j (a i)

/-- The ripple-carry counter update of the bit-reversal pass:
`let k = n >> 1; while (k <= j) { j -= k; k >>= 1; } j += k`.
When the guard `k ≤ j` holds with `k = 0`, the loop body maps the state to
itself (`j -= 0; k = 0 >> 1 = 0`), so the source loop never exits; the
model returns `none` to record exactly that divergence.  Those states are
reachable — e.g. the `n = 3` run enters the loop at `(j, k) = (1, 1)` and
descends to the stuck state `(0, 0)` — so `none` means: the JavaScript
call hangs and never returns. -/
def ripple (j k : ℕ) : Option ℕ :=
  if k ≤ j then
    if h : 1 ≤ k then ripple (j - k) (k / 2) else none
  else some (j + k)
termination_by k
decreasing_by exact Nat.div_lt_self (by omega) (by omega)

theorem ripple_exit (j k : ℕ) (h : ¬ k ≤ j) : ripple j k = some (j + k) := by
  unfold ripple
  rw [if_neg h]

theorem ripple_sub (j k : ℕ) (h : k ≤ j) (h1 : 1 ≤ k) :
    ripple j k = ripple (j - k) (k / 2) := by
  conv_lhs => unfold ripple
  rw [if_pos h, dif_pos h1]

theorem ripple_stuck (j k : ℕ) (h : k ≤ j) (h1 : ¬ 1 ≤ k) : ripple j k = none := by
  unfold ripple
  rw [if_pos h, dif_neg h1]

/-- One iteration `i` of the bit-reversal loop of `fft1D`: conditionally swap
`i` with the current bit-reversed counter `s.1`, then run the ripple-carry
counter update; `none` when that update diverges (the source then never
returns, so no result state exists). -/
def bitRevStep (n : ℕ) (s : ℕ × (ℕ → ℂ)) (i : ℕ) : Option (ℕ × (ℕ → ℂ)) :=
  (ripple s.1 (n / 2)).map
    (fun j' => (j', if i < s.1 then swapIdx s.2 i s.1 else s.2))

/-- The bit-reversal permutation pass of `fft1D`:
`for (i = 0; i < n - 1; i++)` with counter `j` starting at `0`; `none` as
soon as one iteration's counter update diverges. -/
def bitRevPass (n : ℕ) (a : ℕ → ℂ) : Option (ℕ → ℂ) :=
  (((List.range (n - 1)).foldl
      (fun os i => os.bind (fun s => bitRevStep n s i)) (some (0, a))).map Prod.snd)

/-- The incremental twiddle rotation of `fft1D`:
`nextWReal = wReal·cos θ − wImag·sin θ; nextWImag = wReal·sin θ + wImag·cos θ`. -/
noncomputable def rot (θ : ℝ) (w : ℂ) : ℂ :=
  ⟨w.re * Real.cos θ - w.im * Real.sin θ, w.re * Real.sin θ + w.im * Real.cos θ⟩

/-- One iteration `j` of the innermost butterfly loop of `fft1D`
(block start `i`, half block length `halfLen`, state = (twiddle `w`, array)):
`t = w·a[oddIdx]; a[oddIdx] = a[evenIdx] − t; a[evenIdx] += t`, then the
twiddle rotation.  The complex multiplications
`tReal = wReal·real[odd] − wImag·imag[odd]`,
`tImag = wReal·imag[odd] + wImag·real[odd]` are exactly multiplication
in `ℂ`. -/
noncomputable def butterflyStep (θ : ℝ) (halfLen i : ℕ) (s : ℂ × (ℕ → ℂ)) (j : ℕ) :
    ℂ × (ℕ → ℂ) :=
  let evenIdx := i + j
  let oddIdx := i + j + halfLen
  let e := s.2 evenIdx
  let o := s.2 oddIdx
  let t := s.1 * o
  (rot θ s.1, Function.update (Function.update s.2 oddIdx (e - t)) evenIdx (e + t))

/-- The `for (j = 0; j < halfLen; j++)` butterfly loop of one block of
`fft1D`, with the twiddle initialized to `wReal = 1, wImag = 0`. -/
noncomputable def innerLoop (θ : ℝ) (halfLen i : ℕ) (a : ℕ → ℂ) : ℕ → ℂ :=
  ((List.range halfLen).foldl (butterflyStep θ halfLen i) (1, a)).2

/-- The `for (i = 0; i < n; i += len)` block loop of one stage of `fft1D`:
`⌈n / len⌉` blocks starting at multiples of `len`. -/
noncomputable def blockLoop (θ : ℝ) (len halfLen n : ℕ) (a : ℕ → ℂ) : ℕ → ℂ :=
  (List.range ((n + len - 1) / len)).foldl
    (fun acc b => innerLoop θ halfLen (b * len) acc) a

/-- The `for (len = 2; len <= n; len <<= 1)` stage loop of `fft1D`:
stage `s` has `len = 2^(s+1)`, `halfLen = len >> 1 = 2^s` and stage angle
`θ = −2π/len`; the number of stages is `⌊log₂ n⌋`. -/
noncomputable def stages (n : ℕ) (a : ℕ → ℂ) : ℕ → ℂ :=
  (List.range (Nat.log2 n)).foldl
    (fun acc s => blockLoop (-2 * Real.pi / (2 ^ (s + 1))) (2 ^ (s + 1)) (2 ^ s) n acc) a

/-- Embeds `fft1D` (`fft-analyzer.js`): in-place iterative radix-2 Cooley-Tukey
transform of the length-`n` complex sequence `a` (the parallel
`real`/`imag` arrays are modelled as one function `ℕ → ℂ`).  The source
performs no length validation: `n ≤ 1` returns the input unchanged, and
any other length runs the bit-reversal pass and the butterfly stages.
At lengths where the bit-reversal counter loop diverges
(`bitRevPass … = none` — the source call hangs and never returns) this
total wrapper falls back to an arbitrary placeholder (`getD a`); no
theorem below evaluates `fft1D` at such a length: every statement beyond
the `n ≤ 1` early return goes through a proved `bitRevPass … = some …`. -/
noncomputable def fft1D (n : ℕ) (a : ℕ → ℂ) : ℕ → ℂ :=
  if n ≤ 1 then a else stages n ((bitRevPass n a).getD a)

/-- The impulse test vector: `real[0] = 1`, all other entries `0`. -/
def impulse : ℕ → ℂ := fun i => if i = 0 then 1 else 0

/-- Intermediate states of the transform of the impulse: `1` below `m`,
`0` from `m` on. -/
def onesBelow (m : ℕ) : ℕ → ℂ := fun i => if i < m then 1 else 0

theorem impulse_eq_onesBelow : impulse = onesBelow 1 := by
  funext i
  simp [impulse, onesBelow, Nat.lt_one_iff]

theorem swapIdx_eq_self (a : ℕ → ℂ) (i j : ℕ) (h : a i = a j) : swapIdx a i j = a := by
  unfold swapIdx
  rw [← h, Function.update_eq_self, h, Function.update_eq_self]

/-- Reversal of the low `K` bits of `i`: the value the counter `j` of the
bit-reversal loop holds at entry of iteration `i` (bit `0` of `i` lands at
position `K − 1`, and so on). -/
def bitrev : ℕ → ℕ → ℕ
  | 0, _ => 0
  | K + 1, i => bitrev K (i / 2) + (i % 2) * 2 ^ K

theorem bitrev_lt : ∀ K i, bitrev K i < 2 ^ K := by
  intro K
  induction K with
  | zero => intro i; simp [bitrev]
  | succ K ih =>
    intro i
    have h := ih (i / 2)
    rcases Nat.mod_two_eq_zero_or_one i with h2 | h2 <;>
      simp [bitrev, h2, pow_succ] <;> omega

theorem bitrev_zero_right : ∀ K, bitrev K 0 = 0
  | 0 => rfl
  | K + 1 => by simp [bitrev, bitrev_zero_right K]

/-- Correctness of the ripple-carry update: on a counter holding the
`(K+1)`-bit reversal of `i` with `i` not the last loop index, the
`while (k <= j)` loop exits (with `k ≥ 1` throughout) and leaves the
reversal of `i + 1`.  This is the increment-in-reversed-binary argument:
the loop clears the set bits of `j` from the top down (= carry propagation
from bit `0` of `i`) and then sets the first clear position. -/
theorem ripple_bitrev : ∀ (K i : ℕ), i < 2 ^ (K + 1) - 1 →
    ripple (bitrev (K + 1) i) (2 ^ K) = some (bitrev (K + 1) (i + 1)) := by
  intro K
  induction K with
  | zero =>
    intro i hi
    have h0 : i = 0 := by
      norm_num at hi
      omega
    subst h0
    rw [show bitrev 1 0 = 0 from rfl, ripple_exit 0 (2 ^ 0) (by norm_num)]
    rfl
  | succ K ih =>
    intro i hi
    have hp : (2 : ℕ) ^ (K + 2) = 2 ^ (K + 1) * 2 := pow_succ 2 (K + 1)
    rcases Nat.mod_two_eq_zero_or_one i with hpar | hpar
    · -- `i` even: the top bit of the reversed counter is clear, so the
      -- loop guard fails at once and the update just sets that bit.
      have hj : bitrev (K + 2) i = bitrev (K + 1) (i / 2) := by
        simp [bitrev, hpar]
      have hlt : bitrev (K + 1) (i / 2) < 2 ^ (K + 1) := bitrev_lt _ _
      rw [hj, ripple_exit _ _ (by omega)]
      have h1 : (i + 1) % 2 = 1 := by omega
      have h2 : (i + 1) / 2 = i / 2 := by omega
      simp [bitrev, h1, h2]
    · -- `i` odd: the top bit is set; the loop clears it and continues on
      -- the remaining `K+1` bits, which hold the reversal of `i / 2`.
      have hj : bitrev (K + 2) i = bitrev (K + 1) (i / 2) + 2 ^ (K + 1) := by
        simp [bitrev, hpar]
      have hone : 1 ≤ (2 : ℕ) ^ (K + 1) := Nat.one_le_two_pow
      rw [hj, ripple_sub _ _ (by omega) hone]
      have e1 : bitrev (K + 1) (i / 2) + 2 ^ (K + 1) - 2 ^ (K + 1)
          = bitrev (K + 1) (i / 2) := by omega
      have e2 : (2 : ℕ) ^ (K + 1) / 2 = 2 ^ K := by
        rw [pow_succ]
        omega
      have hdiv : i / 2 < 2 ^ (K + 1) - 1 := by omega
      rw [e1, e2, ih (i / 2) hdiv]
      have h1 : (i + 1) % 2 = 0 := by omega
      have h2 : (i + 1) / 2 = i / 2 + 1 := by omega
      simp [bitrev, h1, h2]

/-- Loop invariant of the bit-reversal pass on the impulse, for a
power-of-two length: after `i` iterations the counter holds
`bitrev (K+1) i`, every ripple-carry update so far has terminated, and the
array is still the impulse (each performed swap exchanged two zero
entries). -/
theorem bitRevPass_impulse_inv (K : ℕ) :
    ∀ i, i ≤ 2 ^ (K + 1) - 1 →
      (List.range i).foldl
          (fun os t => os.bind (fun s => bitRevStep (2 ^ (K + 1)) s t))
          (some (0, impulse))
        = some (bitrev (K + 1) i, impulse) := by
  intro i
  induction i with
  | zero =>
    intro _
    rw [bitrev_zero_right]
    rfl
  | succ i ih =>
    intro hi
    rw [List.range_succ, List.foldl_append, List.foldl_cons, List.foldl_nil, ih (by omega)]
    show bitRevStep (2 ^ (K + 1)) (bitrev (K + 1) i, impulse) i
        = some (bitrev (K + 1) (i + 1), impulse)
    unfold bitRevStep
    dsimp only
    have hn2 : (2 : ℕ) ^ (K + 1) / 2 = 2 ^ K := by
      rw [pow_succ]
      omega
    rw [hn2, ripple_bitrev K i (by omega)]
    rw [Option.map_some']
    have harr : (if i < bitrev (K + 1) i then swapIdx impulse i (bitrev (K + 1) i) else impulse)
        = impulse := by
      rcases Nat.eq_zero_or_pos i with h0 | h0
      · subst h0
        rw [bitrev_zero_right]
        simp
      · split
        · next hlt =>
          apply swapIdx_eq_self
          have ha : impulse i = 0 := if_neg (by omega)
          have hb : impulse (bitrev (K + 1) i) = 0 := if_neg (by omega)
          rw [ha, hb]
        · rfl
    rw [harr]

/-- On a power-of-two length `n = 2^(K+1)` the bit-reversal pass of the
impulse terminates (every `while (k <= j)` loop exits with `k ≥ 1`) and
leaves the array unchanged. -/
theorem bitRevPass_impulse_pow (K : ℕ) :
    bitRevPass (2 ^ (K + 1)) impulse = some impulse := by
  unfold bitRevPass
  rw [bitRevPass_impulse_inv K (2 ^ (K + 1) - 1) (le_refl _)]
  rfl

/-- At length `3` the bit-reversal pass diverges, for every input array:
iteration `i = 1` enters the counter loop at `(j, k) = (1, 1)`, which steps
to the stuck state `(0, 0)` — the source's `while (k <= j)` never exits,
so `fft1D` never returns (and in particular never throws an error). -/
theorem bitRevPass_three (a : ℕ → ℂ) : bitRevPass 3 a = none := by
  have hr1 : ripple 0 (3 / 2) = some 1 := by
    rw [ripple_exit 0 (3 / 2) (by omega)]
  have hr2 : ripple 1 (3 / 2) = none := by
    rw [ripple_sub 1 (3 / 2) (by omega) (by omega)]
    rw [ripple_stuck (1 - 3 / 2) (3 / 2 / 2) (by omega) (by omega)]
  unfold bitRevPass bitRevStep
  rw [show List.range (3 - 1) = [0, 1] from by decide]
  simp [hr1, hr2]

theorem butterflyStep_ge (θ : ℝ) (h i₀ m : ℕ) (s : ℂ × (ℕ → ℂ)) (j : ℕ)
    (hm : m ≤ i₀) (hs : s.2 = onesBelow m) :
    (butterflyStep θ h i₀ s j).2 = onesBelow m := by
  unfold butterflyStep
  dsimp only
  rw [hs]
  have he : onesBelow m (i₀ + j) = 0 := if_neg (by omega)
  have ho : onesBelow m (i₀ + j + h) = 0 := if_neg (by omega)
  rw [he, ho, mul_zero, sub_zero, add_zero]
  have step1 : Function.update (onesBelow m) (i₀ + j + h) 0 = onesBelow m := by
    rw [← ho]
    exact Function.update_eq_self _ _
  rw [step1, ← he]
  exact Function.update_eq_self _ _

theorem innerLoop_ge (θ : ℝ) (h i₀ m : ℕ) (hm : m ≤ i₀) :
    innerLoop θ h i₀ (onesBelow m) = onesBelow m := by
  unfold innerLoop
  refine foldl_invariant (butterflyStep θ h i₀) (fun s => s.2 = onesBelow m) _ _ rfl ?_
  intro s j _ hs
  exact butterflyStep_ge θ h i₀ m s j hm hs

theorem butterfly_progress (θ : ℝ) (h j : ℕ) (hj : j < h) (s : ℂ × (ℕ → ℂ))
    (hs : s.2 = onesBelow (h + j)) :
    (butterflyStep θ h 0 s j).2 = onesBelow (h + j + 1) := by
  unfold butterflyStep
  dsimp only
  rw [hs]
  have he : onesBelow (h + j) (0 + j) = 1 := if_pos (by omega)
  have ho : onesBelow (h + j) (0 + j + h) = 0 := if_neg (by omega)
  rw [he, ho, mul_zero, sub_zero, add_zero]
  funext idx
  rcases eq_or_ne idx (0 + j) with h1 | h1
  · subst h1
    rw [Function.update_same]
    exact (if_pos (by omega)).symm
  · rw [Function.update_noteq h1]
    rcases eq_or_ne idx (0 + j + h) with h2 | h2
    · subst h2
      rw [Function.update_same]
      exact (if_pos (by omega)).symm
    · rw [Function.update_noteq h2]
      unfold onesBelow
      by_cases h3 : idx < h + j
      · rw [if_pos h3, if_pos (by omega)]
      · rw [if_neg h3, if_neg (by omega)]

theorem innerLoop_block0 (θ : ℝ) (h : ℕ) :
    innerLoop θ h 0 (onesBelow h) = onesBelow (h + h) := by
  unfold innerLoop
  have key : ∀ c, c ≤ h →
      ((List.range c).foldl (butterflyStep θ h 0) (1, onesBelow h)).2 = onesBelow (h + c) := by
    intro c
    induction c with
    | zero => intro _; rfl
    | succ k ih =>
      intro hc
      rw [List.range_succ, List.foldl_append, List.foldl_cons, List.foldl_nil]
      exact butterfly_progress θ h k (by omega) _ (ih (by omega))
  exact key h (le_refl h)

theorem blockLoop_ones (θ : ℝ) (len h n : ℕ) (hlen : len = h + h)
    (hblocks : 1 ≤ (n + len - 1) / len) :
    blockLoop θ len h n (onesBelow h) = onesBelow (h + h) := by
  unfold blockLoop
  obtain ⟨m, hm⟩ : ∃ m, (n + len - 1) / len = m + 1 := ⟨(n + len - 1) / len - 1, by omega⟩
  rw [hm, List.range_succ_eq_map, List.foldl_cons, Nat.zero_mul, innerLoop_block0]
  refine foldl_invariant _ (fun a => a = onesBelow (h + h)) _ _ rfl ?_
  intro a b hb ha
  obtain ⟨c, _, hc⟩ := List.mem_map.mp hb
  subst ha
  apply innerLoop_ge
  subst hc
  calc h + h = len := hlen.symm
    _ ≤ (c + 1) * len := Nat.le_mul_of_pos_left len (by omega)
    _ = Nat.succ c * len := rfl

theorem stages_impulse (k : ℕ) : stages (2 ^ k) (onesBelow 1) = onesBelow (2 ^ k) := by
  unfold stages
  have hlog : Nat.log2 (2 ^ k) = k := by
    rw [Nat.log2_eq_log_two]
    exact Nat.log_pow (by omega) k
  rw [hlog]
  have key : ∀ c, c ≤ k →
      (List.range c).foldl
        (fun acc s => blockLoop (-2 * Real.pi / (2 ^ (s + 1))) (2 ^ (s + 1)) (2 ^ s) (2 ^ k) acc)
        (onesBelow 1) = onesBelow (2 ^ c) := by
    intro c
    induction c with
    | zero =>
      intro _
      rw [pow_zero]
      rfl
    | succ m ih =>
      intro hc
      rw [List.range_succ, List.foldl_append, List.foldl_cons, List.foldl_nil, ih (by omega)]
      have hlen : (2 : ℕ) ^ (m + 1) = 2 ^ m + 2 ^ m := by
        rw [pow_succ]
        ring
      have hpos : 0 < (2 : ℕ) ^ (m + 1) := pow_pos (by omega) (m + 1)
      have hk : 0 < (2 : ℕ) ^ k := pow_pos (by omega) k
      have hblocks : 1 ≤ ((2 : ℕ) ^ k + 2 ^ (m + 1) - 1) / 2 ^ (m + 1) := by
        rw [Nat.one_le_div_iff hpos]
        omega
      rw [blockLoop_ones _ _ _ _ hlen hblocks, ← hlen]
  exact key k (le_refl k)

theorem fft1D_le_one (n : ℕ) (a : ℕ → ℂ) (h : n ≤ 1) : fft1D n a = a := by
  unfold fft1D
  rw [if_pos h]

/-- On the impulse input of a power-of-two length the transform terminates
and outputs the constant-one sequence: the bit-reversal pass returns
(`bitRevPass_impulse_pow`) leaving the impulse, and every block of every
butterfly stage doubles the prefix of ones — no twiddle value is ever
multiplied by a nonzero entry along the way. -/
theorem fft1D_impulse_eq (k : ℕ) (i : ℕ) (hi : i < 2 ^ k) :
    fft1D (2 ^ k) impulse i = 1 := by
  rcases Nat.eq_zero_or_pos k with hk | hk
  · subst hk
    rw [pow_zero] at hi ⊢
    rw [fft1D_le_one 1 impulse (le_refl 1)]
    have h0 : i = 0 := by omega
    subst h0
    rfl
  · obtain ⟨K, rfl⟩ : ∃ K, k = K + 1 := ⟨k - 1, by omega⟩
    have h2 : ¬ (2 ^ (K + 1) ≤ 1) := by
      have h21 : (2 : ℕ) ^ 1 ≤ 2 ^ (K + 1) := Nat.pow_le_pow_right (by omega) (by omega)
      rw [pow_one] at h21
      omega
    unfold fft1D
    rw [if_neg h2, bitRevPass_impulse_pow, Option.getD_some, impulse_eq_onesBelow,
      stages_impulse]
    exact if_pos hi

/-- The five per-frame heuristic pattern scores of `analyzeFFTPattern`. -/
structure PatternScores where
  gridPattern : ℚ
  brightDots : ℚ
  crossShape : ℚ
  checkerboard : ℚ
  smoothGradient : ℚ

/-- The scoring body of `analyzeFFTPattern`, operating on the
`Uint8ClampedArray` produced by `Utils.normalize` (the only use the
function makes of its `magnitude` argument).  Array reads are `getD _ 0`;
every loop is modelled by a `Finset` count over the same index ranges:
* grid: `y, x` over strides `16, 32, …` below `height`/`width`, threshold `> 200`,
  count divided by `100` and clamped to `1`;
* bright dots: all indices below `normalized.length`, threshold `> 240`,
  divided by `500`, clamped;
* cross: `i < width` along the `⌊height/2⌋` row and the `⌊width/2⌋` column
  (the column loop also runs `i < width`, as in the source), threshold
  `> 180`, divided by `2·width`, clamped;
* checkerboard: positions `y < height−1, x < width−1` where the right- or
  the down-neighbor differs by more than `100`, divided by `width·height`,
  clamped;
* smooth gradient: interior positions whose mean absolute difference to the
  4-neighborhood is `< 30`, divided by `width·height` (no clamp in the
  source). -/
def scoresOfNormalized (normalized : List ℤ) (width height : ℕ) : PatternScores :=
  let v : ℕ → ℤ := fun idx => normalized.getD idx 0
  let gridCount := (((Finset.range ((height - 1) / 16)) ×ˢ (Finset.range ((width - 1) / 16))).filter
    (fun p => 200 < v ((16 * (p.1 + 1)) * width + 16 * (p.2 + 1)))).card
  let gridPattern := min ((gridCount : ℚ) / 100) 1
  let brightCount := ((Finset.range normalized.length).filter (fun i => 240 < v i)).card
  let brightDots := min ((brightCount : ℚ) / 500) 1
  let crossCount :=
    ((Finset.range width).filter (fun i => 180 < v ((height / 2) * width + i))).card +
    ((Finset.range width).filter (fun i => 180 < v (i * width + width / 2))).card
  let crossShape := min ((crossCount : ℚ) / (width * 2)) 1
  let checkerCount := (((Finset.range (height - 1)) ×ˢ (Finset.range (width - 1))).filter
    (fun p => 100 < |v (p.1 * width + p.2) - v (p.1 * width + (p.2 + 1))| ∨
              100 < |v (p.1 * width + p.2) - v ((p.1 + 1) * width + p.2)|)).card
  let checkerboard := min ((checkerCount : ℚ) / (width * height)) 1
  let smoothCount := (((Finset.Ico 1 (height - 1)) ×ˢ (Finset.Ico 1 (width - 1))).filter
    (fun p => ((|v (p.1 * width + p.2) - v ((p.1 - 1) * width + p.2)| +
                (|v (p.1 * width + p.2) - v ((p.1 + 1) * width + p.2)| +
                 (|v (p.1 * width + p.2) - v (p.1 * width + (p.2 - 1))| +
                  |v (p.1 * width + p.2) - v (p.1 * width + (p.2 + 1))|)) : ℤ) : ℚ) / 4 < 30)).card
  let smoothGradient := (smoothCount : ℚ) / (width * height)
  ⟨gridPattern, brightDots, crossShape, checkerboard, smoothGradient⟩

/-- Embeds `analyzeFFTPattern` (`fft-analyzer.js`): normalizes the magnitude
spectrum (`normalized = Utils.normalize(magnitude)`) and scores the result. -/
def analyzeFFTPattern (magnitude : List ℚ) (width height : ℕ) : PatternScores :=
  scoresOfNormalized (Utils.normalize magnitude) width height

/-- Weighted AI-likelihood of the decision stage of `detectAIPatterns`.
The JavaScript literals `0.3, 0.25, 0.25, 0.2` are the exact rationals
`3/10, 1/4, 1/4, 1/5` here. -/
def aiScoreOf (p : PatternScores) : ℚ :=
  p.gridPattern * (3 / 10) + p.brightDots * (1 / 4) +
    p.crossShape * (1 / 4) + p.checkerboard * (1 / 5)

/-- Embeds `realScore = patterns.smoothGradient` in `detectAIPatterns`. -/
def realScoreOf (p : PatternScores) : ℚ := p.smoothGradient

/-- Embeds `isAI = aiScore > realScore` in `detectAIPatterns`. -/
def isAIOf (p : PatternScores) : Bool := decide (aiScoreOf p > realScoreOf p)

/-- Embeds `confidence = Math.min(Math.abs(aiScore - realScore) * 100, 99)`. -/
def confidenceOf (p : PatternScores) : ℚ := min (|aiScoreOf p - realScoreOf p| * 100) 99

/-- The human-readable findings pushed by `detectAIPatterns`. -/
def detailsOf (isAI : Bool) (p : PatternScores) : List String :=
  if isAI then
    (if p.gridPattern > 1 / 2 then
      ["Strong grid pattern detected - characteristic of CNN upsampling"] else []) ++
    (if p.brightDots > 1 / 2 then
      ["Regular bright dots found - indicates periodic artifacts"] else []) ++
    (if p.crossShape > 1 / 2 then
      ["Cross/plus shape pattern - common in GAN-generated content"] else []) ++
    (if p.checkerboard > 2 / 5 then
      ["Checkerboard effect visible - typical of diffusion models"] else [])
  else
    ["Smooth, natural frequency distribution detected",
     "No geometric patterns or regular artifacts found",
     "Frequency spectrum matches real camera footage"]

/-- One entry of the `fftResults` list consumed by `detectAIPatterns`
(the `magnitude`/`width`/`height` record returned per frame). -/
structure FFTData where
  magnitude : List ℚ
  width : ℕ
  height : ℕ

/-- The detection record returned by `detectAIPatterns`. -/
structure DetectionResult where
  isAI : Bool
  confidence : ℚ
  patterns : PatternScores
  details : List String

/-- Embeds `detectAIPatterns` (`fft-analyzer.js`): sums the per-frame scores of
`analyzeFFTPattern`, divides each component by the number of frames, and
applies the decision rule. -/
def detectAIPatterns (fftResults : List FFTData) : DetectionResult :=
  let totals := fftResults.foldl (fun acc r =>
    let a := analyzeFFTPattern r.magnitude r.width r.height
    ⟨acc.gridPattern + a.gridPattern, acc.brightDots + a.brightDots,
     acc.crossShape + a.crossShape, acc.checkerboard + a.checkerboard,
     acc.smoothGradient + a.smoothGradient⟩) (⟨0, 0, 0, 0, 0⟩ : PatternScores)
  let numFrames : ℚ := fftResults.length
  let patterns : PatternScores :=
    ⟨totals.gridPattern / numFrames, totals.brightDots / numFrames,
     totals.crossShape / numFrames, totals.checkerboard / numFrames,
     totals.smoothGradient / numFrames⟩
  let isAI := isAIOf patterns
  ⟨isAI, confidenceOf patterns, patterns, detailsOf isAI patterns⟩

/-- The timestamps `extractFrames` seeks to: `interval = duration/(N+1)`,
then `time = interval·i` for `i = 1..N`, in that order. -/
def requestedTimestamps (numFrames : ℕ) (duration : ℚ) : List ℚ :=
  (List.range numFrames).map (fun i : ℕ => duration / ((numFrames : ℚ) + 1) * ((i : ℚ) + 1))

/-- The full sequence of values passed to the progress callback during one
`analyzeVideo` run with `numFrames` sampled frames: first the
`(i/N)·50` reports of `extractFrames` (`i = 1..N`), then the
`((i+1)/N)·100` reports of the per-frame FFT loop (`i = 0..N−1`). -/
def progressReports (numFrames : ℕ) : List ℚ :=
  ((List.range numFrames).map (fun i : ℕ => ((i : ℚ) + 1) / (numFrames : ℚ) * 50)) ++
  ((List.range numFrames).map (fun i : ℕ => ((i : ℚ) + 1) / (numFrames : ℚ) * 100))

theorem getD_replicate_zero : ∀ (n i : ℕ), (List.replicate n (0 : ℤ)).getD i 0 = 0
  | 0, _ => rfl
  | _ + 1, 0 => rfl
  | n + 1, i + 1 => getD_replicate_zero n i

/-- Scores of the all-zero normalized 256×256 spectrum: the four artifact
counts are empty, while every one of the `254·254` interior points counts
as smooth (mean neighbor difference `0 < 30`). -/
theorem scoresOfNormalized_zero256 :
    scoresOfNormalized (List.replicate (256 * 256) 0) 256 256
      = ⟨0, 0, 0, 0, 64516 / 65536⟩ := by
  unfold scoresOfNormalized
  simp only [getD_replicate_zero, sub_zero, abs_zero, add_zero]
  rw [Finset.filter_false_of_mem (fun x _ => by norm_num),
    Finset.filter_false_of_mem (fun x _ => by norm_num),
    Finset.filter_false_of_mem (fun x _ => by norm_num),
    Finset.filter_false_of_mem (fun x _ => by norm_num),
    Finset.filter_true_of_mem (fun x _ => by norm_num)]
  simp only [Finset.card_empty, Finset.card_product, Nat.card_Ico]
  norm_num

theorem analyzeFFTPattern_zero256 :
    analyzeFFTPattern (List.replicate (256 * 256) (0 : ℚ)) 256 256
      = ⟨0, 0, 0, 0, 16129 / 16384⟩ := by
  unfold analyzeFFTPattern
  rw [Utils.normalize_replicate, scoresOfNormalized_zero256]
  norm_num

/-- Modelled from the spec's reading of the checkerboard rule (claim C5):
count adjacent-pixel *pairs* — every pixel/right-neighbor pair and every
pixel/down-neighbor pair — whose absolute difference exceeds `100`, so a
pixel whose right and down differences both exceed `100` contributes two;
divide by `width·height` and clamp to `1`.  Kept for comparison with the
counting the source actually performs. -/
def checkerboardPairScore (normalized : List ℤ) (width height : ℕ) : ℚ :=
  let v : ℕ → ℤ := fun idx => normalized.getD idx 0
  let rightPairs := (((Finset.range height) ×ˢ (Finset.range (width - 1))).filter
    (fun p => 100 < |v (p.1 * width + p.2) - v (p.1 * width + (p.2 + 1))|)).card
  let downPairs := (((Finset.range (height - 1)) ×ˢ (Finset.range width)).filter
    (fun p => 100 < |v (p.1 * width + p.2) - v ((p.1 + 1) * width + p.2)|)).card
  min (((rightPairs + downPairs : ℕ) : ℚ) / (width * height)) 1

end FFTAnalyzer

/-! ## Claim theorems -/

/-- C1, counterexample: on the all-zero 256×256 spectrum the Pattern
Classifier does *not* yield all five scores equal to `0` — its
`smoothGradient` score is `16129/16384 ≈ 0.984`, because every interior
point of a constant spectrum counts as smooth. -/
theorem zeroSpectrum_smoothGradient_ne_zero :
    (FFTAnalyzer.analyzeFFTPattern (List.replicate (256 * 256) 0) 256 256).smoothGradient ≠ 0 := by
  rw [FFTAnalyzer.analyzeFFTPattern_zero256]
  norm_num

/-- C1 (amended): on the all-zero 256×256 spectrum the four artifact scores
are `0` but `smoothGradient = 16129/16384`; through aggregation and the
decision rule this still gives `isAIGenerated = false` (since
`aiScore = 0 ≤ realScore`), yet with confidence
`min(16129/16384·100, 99) = 403225/4096 ≈ 98.4`, not `0`. -/
theorem detect_zeroSpectrum_eval :
    FFTAnalyzer.detectAIPatterns [⟨List.replicate (256 * 256) 0, 256, 256⟩]
      = ⟨false, 403225 / 4096, ⟨0, 0, 0, 0, 16129 / 16384⟩,
         ["Smooth, natural frequency distribution detected",
          "No geometric patterns or regular artifacts found",
          "Frequency spectrum matches real camera footage"]⟩ := by
  unfold FFTAnalyzer.detectAIPatterns
  simp only [List.foldl_cons, List.foldl_nil, List.length_cons, List.length_nil,
    FFTAnalyzer.analyzeFFTPattern_zero256]
  norm_num [FFTAnalyzer.isAIOf, FFTAnalyzer.aiScoreOf, FFTAnalyzer.realScoreOf,
    FFTAnalyzer.confidenceOf, FFTAnalyzer.detailsOf]
  rw [abs_of_nonneg (by norm_num), min_eq_left (by norm_num)]
  norm_num

/-- C2: with `N = 5` sampled frames the emitted progress sequence is
`10,20,30,40,50` (frame acquisition) followed by `20,40,60,80,100`
(per-frame FFT loop, whose reports are `(i+1)/N·100`, not offset into
`(50,100]`), so the sequence drops from `50` to `20` and is not
monotonically non-decreasing — the code contradicts its own
"First 50% is frame extraction" comment. -/
theorem progressReports_five_not_monotone :
    FFTAnalyzer.progressReports 5 = [10, 20, 30, 40, 50, 20, 40, 60, 80, 100] ∧
      ¬ List.Chain' (· ≤ ·) (FFTAnalyzer.progressReports 5) := by
  have h : FFTAnalyzer.progressReports 5 = [10, 20, 30, 40, 50, 20, 40, 60, 80, 100] := by
    unfold FFTAnalyzer.progressReports
    norm_num [List.range_succ]
  refine ⟨h, ?_⟩
  rw [h]
  intro hchain
  simp only [List.chain'_cons, List.chain'_singleton, and_true] at hchain
  norm_num at hchain

/-- C3, counterexample: no input of invalid length is rejected with an
`InvalidLength` failure.  At length `0` (in the claim's domain) `fft1D`
returns its input unchanged instead of failing; at length `3` the
bit-reversal counter loop diverges — the call never returns at all, which
is also not an `InvalidLength` rejection.  There is no precondition check
and no failure path anywhere in the source. -/
theorem fft1D_no_length_rejection :
    FFTAnalyzer.fft1D 0 (fun _ => 0) = (fun _ => 0) ∧
      FFTAnalyzer.bitRevPass 3 (fun _ => 0) = none :=
  ⟨FFTAnalyzer.fft1D_le_one 0 _ (by omega), FFTAnalyzer.bitRevPass_three _⟩

/-- C3 (amended): `fft1D` performs no length validation and has no
`InvalidLength` failure path: for `n ≤ 1` (in particular `n = 0`) it
returns its input unchanged instead of failing, and at other
non-power-of-two lengths such as `3` its bit-reversal counter loop
diverges — the call never returns, which is still not a rejection. -/
theorem fft1D_no_validation (n : ℕ) (a : ℕ → ℂ) (h : n ≤ 1) :
    FFTAnalyzer.fft1D n a = a ∧ FFTAnalyzer.bitRevPass 3 a = none :=
  ⟨FFTAnalyzer.fft1D_le_one n a h, FFTAnalyzer.bitRevPass_three a⟩

theorem fft1D_no_validation_witness :
    (0 : ℕ) ≤ 1 ∧
      (FFTAnalyzer.fft1D 0 (fun _ => (5 : ℂ)) = (fun _ => (5 : ℂ)) ∧
        FFTAnalyzer.bitRevPass 3 (fun _ => (5 : ℂ)) = none) :=
  ⟨by decide, fft1D_no_validation 0 (fun _ => (5 : ℂ)) (by decide)⟩

/-- C4: for every aggregate score set with all five components in `[0,1]`,
the decision stage computes
`aiScore = 0.30·gridPattern + 0.25·brightDots + 0.25·crossShape + 0.20·checkerboard`,
`realScore = smoothGradient`, sets `isAIGenerated` exactly when
`aiScore > realScore` (a tie gives `false`), and sets
`confidence = min(|aiScore − realScore|·100, 99)`. -/
theorem decision_rule_spec (p : FFTAnalyzer.PatternScores)
    (_hg : 0 ≤ p.gridPattern ∧ p.gridPattern ≤ 1)
    (_hb : 0 ≤ p.brightDots ∧ p.brightDots ≤ 1)
    (_hc : 0 ≤ p.crossShape ∧ p.crossShape ≤ 1)
    (_hch : 0 ≤ p.checkerboard ∧ p.checkerboard ≤ 1)
    (_hs : 0 ≤ p.smoothGradient ∧ p.smoothGradient ≤ 1) :
    FFTAnalyzer.aiScoreOf p
        = (3 / 10) * p.gridPattern + (1 / 4) * p.brightDots
            + (1 / 4) * p.crossShape + (1 / 5) * p.checkerboard ∧
      FFTAnalyzer.realScoreOf p = p.smoothGradient ∧
      (FFTAnalyzer.isAIOf p = true ↔ FFTAnalyzer.aiScoreOf p > FFTAnalyzer.realScoreOf p) ∧
      (FFTAnalyzer.aiScoreOf p = FFTAnalyzer.realScoreOf p → FFTAnalyzer.isAIOf p = false) ∧
      FFTAnalyzer.confidenceOf p
        = min (|FFTAnalyzer.aiScoreOf p - FFTAnalyzer.realScoreOf p| * 100) 99 := by
  refine ⟨by unfold FFTAnalyzer.aiScoreOf; ring, rfl, ?_, ?_, rfl⟩
  · unfold FFTAnalyzer.isAIOf
    exact decide_eq_true_iff
  · intro h
    unfold FFTAnalyzer.isAIOf
    rw [h]
    simp [lt_irrefl]

theorem decision_rule_spec_witness :
    ((0 : ℚ) ≤ 1 ∧ (1 : ℚ) ≤ 1) ∧
      (FFTAnalyzer.isAIOf ⟨1, 1 / 2, 1 / 2, 1 / 2, 1 / 4⟩ = true ↔
        FFTAnalyzer.aiScoreOf ⟨1, 1 / 2, 1 / 2, 1 / 2, 1 / 4⟩
          > FFTAnalyzer.realScoreOf ⟨1, 1 / 2, 1 / 2, 1 / 2, 1 / 4⟩) :=
  ⟨⟨by norm_num, by norm_num⟩,
    (decision_rule_spec ⟨1, 1 / 2, 1 / 2, 1 / 2, 1 / 4⟩ (by norm_num) (by norm_num)
      (by norm_num) (by norm_num) (by norm_num)).2.2.1⟩

/-- C5, counterexample: on the spectrum `[0,255,255,0]` (2×2, already in
normalized form) the source's checkerboard score is `1/4` — it counts the
single position `(0,0)` once although both its right and its down
difference exceed `100` — while the claimed pair count gives
`min(4/4, 1) = 1`. -/
theorem checkerboard_pair_count_refuted :
    (FFTAnalyzer.analyzeFFTPattern [0, 255, 255, 0] 2 2).checkerboard
      ≠ FFTAnalyzer.checkerboardPairScore (Utils.normalize [0, 255, 255, 0]) 2 2 := by
  have hnorm : Utils.normalize [0, 255, 255, 0] = ([0, 255, 255, 0] : List ℤ) := by
    norm_num [Utils.normalize, Utils.listMin, Utils.listMax, Utils.uint8Clamp,
      min_def, max_def]
  unfold FFTAnalyzer.analyzeFFTPattern FFTAnalyzer.scoresOfNormalized
    FFTAnalyzer.checkerboardPairScore
  rw [hnorm]
  dsimp only
  rw [show (((Finset.range (2 - 1)) ×ˢ (Finset.range (2 - 1))).filter
        (fun p => 100 < |([0, 255, 255, 0] : List ℤ).getD (p.1 * 2 + p.2) 0
            - ([0, 255, 255, 0] : List ℤ).getD (p.1 * 2 + (p.2 + 1)) 0| ∨
          100 < |([0, 255, 255, 0] : List ℤ).getD (p.1 * 2 + p.2) 0
            - ([0, 255, 255, 0] : List ℤ).getD ((p.1 + 1) * 2 + p.2) 0|)).card = 1 from by decide]
  rw [show (((Finset.range 2) ×ˢ (Finset.range (2 - 1))).filter
        (fun p => 100 < |([0, 255, 255, 0] : List ℤ).getD (p.1 * 2 + p.2) 0
            - ([0, 255, 255, 0] : List ℤ).getD (p.1 * 2 + (p.2 + 1)) 0|)).card = 2 from by decide]
  rw [show (((Finset.range (2 - 1)) ×ˢ (Finset.range 2)).filter
        (fun p => 100 < |([0, 255, 255, 0] : List ℤ).getD (p.1 * 2 + p.2) 0
            - ([0, 255, 255, 0] : List ℤ).getD ((p.1 + 1) * 2 + p.2) 0|)).card = 2 from by decide]
  rw [min_eq_left (by norm_num), min_eq_left (by norm_num)]
  norm_num

/-- C5 (amended): the checkerboard score counts *positions* `(x, y)` with
`x < width−1, y < height−1` for which the right-neighbor or the
down-neighbor absolute difference exceeds `100` — at most one count per
position even when both exceed, and no pairs from the last row/column —
divided by `width·height` and clamped to `1`.  Stated via the union of the
two position sets. -/
theorem checkerboard_position_count (m : List ℚ) (w h : ℕ) :
    (FFTAnalyzer.analyzeFFTPattern m w h).checkerboard
      = min
          (((((Finset.range (h - 1)) ×ˢ (Finset.range (w - 1))).filter
              (fun p => 100 < |(Utils.normalize m).getD (p.1 * w + p.2) 0
                  - (Utils.normalize m).getD (p.1 * w + (p.2 + 1)) 0|) ∪
            ((Finset.range (h - 1)) ×ˢ (Finset.range (w - 1))).filter
              (fun p => 100 < |(Utils.normalize m).getD (p.1 * w + p.2) 0
                  - (Utils.normalize m).getD ((p.1 + 1) * w + p.2) 0|)).card : ℚ)
            / (w * h)) 1 := by
  unfold FFTAnalyzer.analyzeFFTPattern FFTAnalyzer.scoresOfNormalized
  dsimp only
  rw [Finset.filter_or]

/-- C6: `extractFrames` requests exactly `N` frames, at timestamps
`D·i/(N+1)` for `i = 1..N` in increasing order of `i`; in particular
`N = 5, D = 10` requests `10/6, 20/6, 30/6, 40/6, 50/6` in that order. -/
theorem requestedTimestamps_spec (N : ℕ) (D : ℚ) :
    (FFTAnalyzer.requestedTimestamps N D).length = N ∧
      FFTAnalyzer.requestedTimestamps N D
        = (List.range N).map (fun i : ℕ => D * ((i : ℚ) + 1) / ((N : ℚ) + 1)) ∧
      FFTAnalyzer.requestedTimestamps 5 10 = [10 / 6, 20 / 6, 30 / 6, 40 / 6, 50 / 6] := by
  refine ⟨by unfold FFTAnalyzer.requestedTimestamps; rw [List.length_map, List.length_range], ?_, ?_⟩
  · unfold FFTAnalyzer.requestedTimestamps
    refine List.map_congr_left ?_
    intro i _
    rw [div_mul_eq_mul_div]
  · unfold FFTAnalyzer.requestedTimestamps
    norm_num [List.range_succ]

/-- C7: for even dimensions, `fftShift` applied twice returns the original
array (pointwise at every valid index `(x, y)`): the quadrant swap
`(x, y) ↦ ((x+w/2) mod w, (y+h/2) mod h)` is an involution. -/
theorem fftShift_involutive (data : ℕ → ℚ) (w h : ℕ) (hw : Even w) (hh : Even h)
    (x y : ℕ) (hx : x < w) (hy : y < h) :
    Utils.fftShift (Utils.fftShift data w h) w h (y * w + x) = data (y * w + x) := by
  have hx' : (x + w / 2) % w < w := Nat.mod_lt _ (by omega)
  have hy' : (y + h / 2) % h < h := Nat.mod_lt _ (by omega)
  rw [Utils.fftShift_apply_even (Utils.fftShift data w h) w h hw hh y x hy hx]
  rw [Utils.fftShift_apply_even data w h hw hh _ _ hy' hx']
  rw [Utils.mod_shift_cancel hx (Utils.even_half_add_half hw),
    Utils.mod_shift_cancel hy (Utils.even_half_add_half hh)]

theorem fftShift_involutive_witness :
    Even 2 ∧ 1 < 2 ∧
      Utils.fftShift (Utils.fftShift (fun i : ℕ => (i : ℚ)) 2 2) 2 2 (1 * 2 + 1)
        = ((1 * 2 + 1 : ℕ) : ℚ) := by
  refine ⟨⟨1, rfl⟩, by decide, ?_⟩
  exact fftShift_involutive (fun i : ℕ => (i : ℚ)) 2 2 ⟨1, rfl⟩ ⟨1, rfl⟩ 1 1
    (by decide) (by decide)

/-- C8: `normalize` preserves the length, keeps every output value in
`[0, 255]`, and maps every constant-valued (e.g. all-zero) input to the
all-zero array — no division by zero occurs (the `range > 0` guard) and
no `NaN` can arise in the exact-arithmetic model. -/
theorem normalize_spec (l : List ℚ) (_hl : l ≠ []) :
    ((Utils.normalize l).length = l.length ∧
        ∀ z ∈ Utils.normalize l, 0 ≤ z ∧ z ≤ 255) ∧
      ∀ c : ℚ, (∀ x ∈ l, x = c) → Utils.normalize l = List.replicate l.length 0 := by
  refine ⟨⟨Utils.normalize_length l, fun z hz => Utils.normalize_mem_bounds l z hz⟩, ?_⟩
  intro c hc
  have hrep : l = List.replicate l.length c := List.eq_replicate_iff.mpr ⟨rfl, hc⟩
  calc Utils.normalize l = Utils.normalize (List.replicate l.length c) := by rw [← hrep]
    _ = List.replicate l.length 0 := Utils.normalize_replicate l.length c

theorem normalize_spec_witness :
    ([(3 : ℚ), 3] ≠ [] ∧ Utils.normalize [(3 : ℚ), 3] = List.replicate 2 0) :=
  ⟨by simp, (normalize_spec [(3 : ℚ), 3] (by simp)).2 3 (by simp)⟩

/-- C9: over exact real/complex arithmetic, the transform of the impulse
input (`real[0] = 1`, all else `0`) of any power-of-two length has
magnitude `sqrt(re² + im²) = 1` at every index. -/
theorem fft1D_impulse_magnitude (k i : ℕ) (hi : i < 2 ^ k) :
    Utils.calculateMagnitude
        (fun t => (FFTAnalyzer.fft1D (2 ^ k) FFTAnalyzer.impulse t).re)
        (fun t => (FFTAnalyzer.fft1D (2 ^ k) FFTAnalyzer.impulse t).im) i = 1 := by
  unfold Utils.calculateMagnitude
  dsimp only
  rw [FFTAnalyzer.fft1D_impulse_eq k i hi]
  simp [Real.sqrt_one]

theorem fft1D_impulse_magnitude_witness :
    0 < 2 ^ 0 ∧
      Utils.calculateMagnitude
          (fun t => (FFTAnalyzer.fft1D (2 ^ 0) FFTAnalyzer.impulse t).re)
          (fun t => (FFTAnalyzer.fft1D (2 ^ 0) FFTAnalyzer.impulse t).im) 0 = 1 :=
  ⟨by decide, fft1D_impulse_magnitude 0 0 (by decide)⟩

/-- C10: the Pattern Classifier normalizes its input before scoring, so a
positive affine rescale `a·X + b` of a non-constant spectrum produces
exactly the same five pattern scores. -/
theorem analyzeFFTPattern_affine_invariant (m : List ℚ) (w h : ℕ) (a b : ℚ)
    (ha : 0 < a) (_hmm : Utils.listMin m < Utils.listMax m) :
    FFTAnalyzer.analyzeFFTPattern (m.map (fun x => a * x + b)) w h
      = FFTAnalyzer.analyzeFFTPattern m w h := by
  unfold FFTAnalyzer.analyzeFFTPattern
  rw [Utils.normalize_map_affine a b ha m]

theorem analyzeFFTPattern_affine_invariant_witness :
    (0 : ℚ) < 2 ∧ Utils.listMin [0, 100, 200, 300] < Utils.listMax [0, 100, 200, 300] ∧
      FFTAnalyzer.analyzeFFTPattern ([0, 100, 200, 300].map (fun x => 2 * x + 5)) 2 2
        = FFTAnalyzer.analyzeFFTPattern [0, 100, 200, 300] 2 2 :=
  ⟨by norm_num,
    by norm_num [Utils.listMin, Utils.listMax, min_def, max_def],
    analyzeFFTPattern_affine_invariant [0, 100, 200, 300] 2 2 2 5 (by norm_num)
      (by norm_num [Utils.listMin, Utils.listMax, min_def, max_def])⟩

end TruthLens
